import Mathlib

/-!
Verification of the `slice-string` crate: a fixed-capacity UTF-8 string view
(`SliceString`) over a caller-owned byte region, backed by a `SliceVec`-like
bounded byte container.

The embedding models a view as the full backing byte region (a `List Nat`,
whose length is the capacity) together with the occupied length `len`.
All operations of `src/lib.rs` are translated as pure state-passing
functions; a Rust panic/abort (failed `assert!`, a container capacity
assertion) is modelled by returning `none`.
-/

namespace SliceStr

/-- Whether a byte is a UTF-8 continuation byte (`0x80..=0xBF`), as tested by
the core Rust UTF-8 machinery. -/
def isCont (b : Nat) : Bool := 0x80 ≤ b && b < 0xC0

/-- Whether a code point is a Unicode scalar value, i.e. a value a Rust `char`
can hold: below `0x110000` and not a surrogate. -/
def isScalar (c : Nat) : Bool := c < 0xD800 || (0xE000 ≤ c && c < 0x110000)

/-- Byte length of the UTF-8 encoding of a scalar value, as `char::len_utf8`. -/
def utf8Len (c : Nat) : Nat :=
  if c < 0x80 then 1 else if c < 0x800 then 2 else if c < 0x10000 then 3 else 4

/-- The standard UTF-8 encoding of a Unicode scalar value, as
`char::encode_utf8` produces it. -/
def encodeChar (c : Nat) : List Nat :=
  if c < 0x80 then [c]
  else if c < 0x800 then [0xC0 + c / 64, 0x80 + c % 64]
  else if c < 0x10000 then [0xE0 + c / 4096, 0x80 + c / 64 % 64, 0x80 + c % 64]
  else [0xF0 + c / 262144, 0x80 + c / 4096 % 64, 0x80 + c / 64 % 64, 0x80 + c % 64]

/-- Concatenated UTF-8 encoding of a list of scalar values. -/
def encodeList (cs : List Nat) : List Nat := (cs.map encodeChar).flatten

/-- The byte list `bs` is valid UTF-8: it is the encoding of some sequence of
Unicode scalar values. -/
inductive ValidUtf8 : List Nat → Prop
  | nil : ValidUtf8 []
  | cons (c : Nat) (rest : List Nat) : isScalar c = true → ValidUtf8 rest →
      ValidUtf8 (encodeChar c ++ rest)

/-- Helper for byte-range tests of the UTF-8 validator. -/
def inRange (lo hi b : Nat) : Bool := lo ≤ b && b < hi

/-- Lower bound of the allowed second byte of a multi-byte sequence, per first
byte, as in the table of `core::str::run_utf8_validation` (0xE0 and 0xF0
forbid overlong forms). -/
def contLo (b : Nat) : Nat := if b = 0xE0 then 0xA0 else if b = 0xF0 then 0x90 else 0x80

/-- Upper bound (exclusive) of the allowed second byte of a multi-byte
sequence, per first byte (0xED excludes surrogates, 0xF4 caps at 0x10FFFF). -/
def contHi (b : Nat) : Nat := if b = 0xED then 0xA0 else if b = 0xF4 then 0x90 else 0xC0

/-- Decode the first Unicode scalar value of a byte list, per the standard
UTF-8 validation rules used by `str::from_utf8` (rejecting overlong forms,
surrogates and out-of-range values).  Returns the scalar and the number of
bytes consumed, or `none` if the bytes do not start with a valid sequence. -/
def decodeChar : List Nat → Option (Nat × Nat)
  | [] => none
  | b :: rest =>
    if b < 0x80 then some (b, 1)
    else if b < 0xC2 then none
    else if b < 0xE0 then
      match rest with
      | b1 :: _ =>
        if isCont b1 then some ((b - 0xC0) * 64 + (b1 - 0x80), 2) else none
      | _ => none
    else if b < 0xF0 then
      match rest with
      | b1 :: b2 :: _ =>
        if inRange (contLo b) (contHi b) b1 && isCont b2 then
          some ((b - 0xE0) * 4096 + (b1 - 0x80) * 64 + (b2 - 0x80), 3)
        else none
      | _ => none
    else if b < 0xF5 then
      match rest with
      | b1 :: b2 :: b3 :: _ =>
        if inRange (contLo b) (contHi b) b1 && isCont b2 && isCont b3 then
          some ((b - 0xF0) * 262144 + (b1 - 0x80) * 4096 + (b2 - 0x80) * 64 + (b3 - 0x80), 4)
        else none
      | _ => none
    else none

/-- UTF-8 validation loop of `str::from_utf8`, with explicit fuel (the fuel is
only there to make the recursion structural; `fuel ≥ bs.length` suffices,
since every step consumes at least one byte).  On failure it returns the byte
position at which the first invalid sequence starts, accumulated in `p`. -/
def validateFuel : Nat → List Nat → Nat → Except Nat Unit
  | _, [], _ => Except.ok ()
  | 0, _ :: _, p => Except.error p
  | fuel + 1, b :: rest, p =>
    match decodeChar (b :: rest) with
    | none => Except.error p
    | some ck => validateFuel fuel ((b :: rest).drop ck.2) (p + ck.2)

/-- UTF-8 validation of a whole byte list, as `str::from_utf8` performs it:
`ok` when valid, otherwise the error carries the position of the first
invalid sequence. -/
def validateUtf8 (bs : List Nat) : Except Nat Unit := validateFuel bs.length bs 0

/-- Boolean UTF-8 validity check (the property a Rust `&str` value carries by
construction). -/
def isUtf8 (bs : List Nat) : Bool :=
  match validateUtf8 bs with
  | Except.ok _ => true
  | Except.error _ => false

/-- Rust `str::is_char_boundary` on the byte list of a string: index 0 is a
boundary; past-the-end indices are boundaries only at exactly the length;
otherwise the byte at the index must not be a continuation byte. -/
def isCharBoundary (bs : List Nat) (i : Nat) : Bool :=
  if i = 0 then true
  else
    match bs[i]? with
    | none => i == bs.length
    | some b => !isCont b

/-- Decode the last scalar value of a string given its reversed byte list,
mirroring `core::str::next_code_point_reverse`: walk back over up to three
continuation bytes, treating a missing byte as `0` (`unwrap_or(&0)`), and
recombine with the same shift-and-mask arithmetic. -/
def decodeLastAux : List Nat → Option Nat
  | [] => none
  | w :: r =>
    if w < 0x80 then some w
    else
      if isCont (r.headD 0) then
        if isCont (r.tail.headD 0) then
          some (((r.tail.tail.headD 0 % 8 * 64 + r.tail.headD 0 % 64) * 64
            + r.headD 0 % 64) * 64 + w % 64)
        else
          some ((r.tail.headD 0 % 16 * 64 + r.headD 0 % 64) * 64 + w % 64)
      else
        some (r.headD 0 % 32 * 64 + w % 64)

/-- Decode the last scalar value of a byte string, as
`str::chars().next_back()` does. -/
def decodeLast (bs : List Nat) : Option Nat := decodeLastAux bs.reverse

/-- The `SliceString` view: the full backing byte region (whose length is the
capacity) and the occupied length. -/
structure SliceString where
  data : List Nat
  len : Nat
deriving DecidableEq

/-- The capacity error returned by `push` and `push_str`. -/
inductive Error where
  | mk : Error
deriving DecidableEq

/-- The `str::Utf8Error` returned by the validated constructor; it carries the
byte position up to which the input was valid. -/
structure Utf8Error where
  valid_up_to : Nat
deriving DecidableEq

/-- Rust `SliceString::capacity`: the backing region's size. -/
def capacity (s : SliceString) : Nat := s.data.length

/-- Rust `SliceString::as_str`: the occupied prefix of the region. -/
def as_str (s : SliceString) : List Nat := s.data.take s.len

/-- Rust `SliceString::new`: a length-0 view over the region. -/
def new (buf : List Nat) : SliceString := SliceString.mk buf 0

/-- Rust `SliceString::from_utf8_unchecked`: trusts the caller that
`buf[..len]` is valid UTF-8 and builds the view directly. -/
def from_utf8_unchecked (buf : List Nat) (n : Nat) : SliceString := SliceString.mk buf n

/-- Rust `SliceString::from_utf8`: validates `buf[..len]` and returns a view
on success, or the `Utf8Error` of `str::from_utf8` on failure.  The slice
expression `&buf[..len]` panics when `len` exceeds the region size, which is
modelled by the outer `none`. -/
def from_utf8 (buf : List Nat) (n : Nat) : Option (Except Utf8Error SliceString) :=
  if n ≤ buf.length then
    match validateUtf8 (buf.take n) with
    | Except.ok _ => some (Except.ok (SliceString.mk buf n))
    | Except.error p => some (Except.error (Utf8Error.mk p))
  else none

/-- Rust `From<SliceString> for (&mut [u8], usize)`: hand back the full
backing region and the occupied length. -/
def into_parts (s : SliceString) : List Nat × Nat := (s.data, s.len)

/-- Rust `SliceString::clear` (via `SliceVec::clear`): length becomes 0, the
region is untouched. -/
def clear (s : SliceString) : SliceString := SliceString.mk s.data 0

/-- Rust `SliceString::truncate`: a no-op when `new_len > len`; otherwise it
asserts the char-boundary condition (a failed assert aborts, modelled as
`none`) and shrinks the length. -/
def truncate (s : SliceString) (n : Nat) : Option SliceString :=
  if n ≤ s.len then
    if isCharBoundary (as_str s) n then some (SliceString.mk s.data n) else none
  else some s

/-- Rust `SliceString::pop`: decode the last char of the occupied text; if
there is one, shrink the length by its encoded size and return it. -/
def pop (s : SliceString) : Option Nat × SliceString :=
  match decodeLast (as_str s) with
  | none => (none, s)
  | some c => (some c, SliceString.mk s.data (s.len - utf8Len c))

/-- Write `bs` after the occupied prefix, as `SliceVec::push` and
`SliceVec::extend_from_slice` do once their capacity assertions have passed:
bytes `len..len+|bs|` are overwritten in place and the length grows. -/
def writeAt (s : SliceString) (bs : List Nat) : SliceString :=
  SliceString.mk (s.data.take s.len ++ bs ++ s.data.drop (s.len + bs.length))
    (s.len + bs.length)

/-- Rust `SliceString::push`.  It first checks `capacity < len + len_utf8(c)`
and returns the capacity error without touching the view.  A 1-byte char is
pushed as `c as u8`.  Otherwise the code encodes `c` into a zero-initialised
4-byte buffer and extends with the WHOLE buffer (`extend_from_slice(&buf)`),
i.e. it appends all 4 bytes: the encoding followed by zero padding.  The
container's `extend_from_slice` asserts that 4 bytes fit and aborts
otherwise, modelled by `none`. -/
def push (s : SliceString) (c : Nat) : Option (Except Error Unit × SliceString) :=
  if capacity s < s.len + utf8Len c then some (Except.error Error.mk, s)
  else if utf8Len c = 1 then some (Except.ok (), writeAt s [c % 256])
  else if s.len + 4 ≤ capacity s then
    some (Except.ok (), writeAt s (encodeChar c ++ List.replicate (4 - utf8Len c) 0))
  else none

/-- Rust `SliceString::push_str`: check `capacity < len + |bytes|`, return the
capacity error leaving the view as it was, else append the bytes.  The
capacity check exactly matches `extend_from_slice`'s assertion, so this path
never aborts. -/
def push_str (s : SliceString) (t : List Nat) : Except Error Unit × SliceString :=
  if capacity s < s.len + t.length then (Except.error Error.mk, s)
  else (Except.ok (), writeAt s t)

/-- Rust `SliceString::split_off`: for `at ≤ len` it asserts the char
boundary (abort modelled as `none`), then `SliceVec::split_off` divides the
backing region: the original keeps `[0, at)` (capacity and length `at`), the
new view owns `[at, capacity)` with length `len - at`.  For `at > len` the
boundary assert is skipped and the container's own out-of-range behaviour
(an abort) applies. -/
def split_off (s : SliceString) (n : Nat) : Option (SliceString × SliceString) :=
  if n ≤ s.len then
    if isCharBoundary (as_str s) n then
      some (SliceString.mk (s.data.take n) n,
        SliceString.mk (s.data.drop n) (s.len - n))
    else none
  else none

/-- The representation invariant of `SliceString`: the occupied prefix is
valid UTF-8 (I1) and the occupied length is bounded by the capacity (I2). -/
def Valid (s : SliceString) : Prop :=
  ValidUtf8 (as_str s) ∧ s.len ≤ capacity s

/-- One safe operation of the public API, for the invariant-preservation
statement.  `opSplitLeft`/`opSplitRight` continue with the original resp. the
returned view of `split_off`; the checked constructors replace the state with
the freshly constructed view when they succeed.  `opPush` carries a scalar
value (a Rust `char`), `opPushStr` a valid-UTF-8 byte string (a Rust `&str`);
inputs outside those types are not expressible in the Rust API and are mapped
to `none`. -/
inductive Op where
  | opClear : Op
  | opTruncate : Nat → Op
  | opPop : Op
  | opPush : Nat → Op
  | opPushStr : List Nat → Op
  | opSplitLeft : Nat → Op
  | opSplitRight : Nat → Op
  | opNew : List Nat → Op
  | opFromUtf8 : List Nat → Nat → Op

/-- Apply one safe operation; `none` means the program aborted (or the
operation's input was not expressible in the Rust API). -/
def applyOp (s : SliceString) : Op → Option SliceString
  | Op.opClear => some (clear s)
  | Op.opTruncate n => truncate s n
  | Op.opPop => some (pop s).2
  | Op.opPush c =>
    if isScalar c then
      match push s c with
      | none => none
      | some (Except.error _, t) => some t
      | some (Except.ok _, t) => some t
    else none
  | Op.opPushStr t =>
    if isUtf8 t then
      match push_str s t with
      | (_, u) => some u
    else none
  | Op.opSplitLeft n => (split_off s n).map Prod.fst
  | Op.opSplitRight n => (split_off s n).map Prod.snd
  | Op.opNew buf => some (new buf)
  | Op.opFromUtf8 buf n =>
    match from_utf8 buf n with
    | none => none
    | some (Except.error _) => some s
    | some (Except.ok t) => some t

/-- Run a sequence of safe operations from a starting view. -/
def runOps (s : SliceString) : List Op → Option SliceString
  | [] => some s
  | op :: ops => (applyOp s op).bind (fun t => runOps t ops)

/-! Basic facts about the UTF-8 encoder. -/

theorem length_encodeChar (c : Nat) : (encodeChar c).length = utf8Len c := by
  unfold encodeChar utf8Len
  split_ifs <;> rfl

theorem utf8Len_pos (c : Nat) : 1 ≤ utf8Len c := by
  unfold utf8Len
  split_ifs <;> omega

theorem utf8Len_le_four (c : Nat) : utf8Len c ≤ 4 := by
  unfold utf8Len
  split_ifs <;> omega

theorem encodeList_nil : encodeList [] = [] := rfl

theorem encodeList_cons (c : Nat) (cs : List Nat) :
    encodeList (c :: cs) = encodeChar c ++ encodeList cs := by
  simp [encodeList]

theorem validUtf8_append {a b : List Nat} (ha : ValidUtf8 a) (hb : ValidUtf8 b) :
    ValidUtf8 (a ++ b) := by
  induction ha with
  | nil => simpa using hb
  | cons c rest hc _ ih =>
    rw [List.append_assoc]
    exact ValidUtf8.cons c _ hc ih

theorem validUtf8_encodeList {cs : List Nat} (h : ∀ x ∈ cs, isScalar x = true) :
    ValidUtf8 (encodeList cs) := by
  induction cs with
  | nil => exact ValidUtf8.nil
  | cons c cs ih =>
    rw [encodeList_cons]
    exact ValidUtf8.cons c _ (h c (by simp)) (ih fun x hx => h x (by simp [hx]))

theorem validUtf8_replicate_zero (n : Nat) : ValidUtf8 (List.replicate n 0) := by
  induction n with
  | zero => exact ValidUtf8.nil
  | succ m ih =>
    have h : List.replicate (m + 1) 0 = encodeChar 0 ++ List.replicate m 0 := by
      simp [encodeChar, List.replicate_succ]
    rw [h]
    exact ValidUtf8.cons 0 _ (by decide) ih

/-- Every valid UTF-8 byte string is the encoding of a list of scalars; a
nonempty one splits off its last character. -/
theorem validUtf8_snoc {bs : List Nat} (h : ValidUtf8 bs) :
    bs = [] ∨ ∃ cs c, (∀ x ∈ cs, isScalar x = true) ∧ isScalar c = true ∧
      encodeList cs ++ encodeChar c = bs := by
  induction h with
  | nil => exact Or.inl rfl
  | cons c rest hc _ ih =>
    right
    rcases ih with h0 | ⟨cs, c2, hcs, hc2, he⟩
    · exact ⟨[], c, by simp, hc, by simp [encodeList_nil, h0]⟩
    · refine ⟨c :: cs, c2, ?_, hc2, ?_⟩
      · intro x hx
        rcases List.mem_cons.1 hx with rfl | hx
        · exact hc
        · exact hcs x hx
      · rw [encodeList_cons, List.append_assoc, he]

theorem isCont_true {b : Nat} (h1 : 0x80 ≤ b) (h2 : b < 0xC0) : isCont b = true := by
  simp [isCont]
  omega

theorem isCont_false_lo {b : Nat} (h : b < 0x80) : isCont b = false := by
  simp [isCont]
  intro h2
  omega

theorem isCont_false_hi {b : Nat} (h : 0xC0 ≤ b) : isCont b = false := by
  simp [isCont]
  intro h2
  omega

/-- The first byte of an encoding is not a continuation byte and all later
bytes are continuation bytes. -/
theorem encodeChar_head_tail (c : Nat) :
    ∃ b t, encodeChar c = b :: t ∧ isCont b = false ∧ ∀ x ∈ t, isCont x = true := by
  unfold encodeChar
  split_ifs with h1 h2 h3
  · exact ⟨c, [], rfl, isCont_false_lo h1, by simp⟩
  · refine ⟨0xC0 + c / 64, [0x80 + c % 64], rfl, isCont_false_hi (by omega), ?_⟩
    intro x hx
    simp only [List.mem_singleton] at hx
    subst hx
    exact isCont_true (by omega) (by omega)
  · refine ⟨0xE0 + c / 4096, [0x80 + c / 64 % 64, 0x80 + c % 64], rfl,
      isCont_false_hi (by omega), ?_⟩
    intro x hx
    simp only [List.mem_cons, List.mem_singleton] at hx
    rcases hx with rfl | rfl | h
    · exact isCont_true (by omega) (by omega)
    · exact isCont_true (by omega) (by omega)
    · cases h
  · refine ⟨0xF0 + c / 262144, [0x80 + c / 4096 % 64, 0x80 + c / 64 % 64, 0x80 + c % 64],
      rfl, isCont_false_hi (by omega), ?_⟩
    intro x hx
    simp only [List.mem_cons, List.mem_singleton] at hx
    rcases hx with rfl | rfl | rfl | h
    · exact isCont_true (by omega) (by omega)
    · exact isCont_true (by omega) (by omega)
    · exact isCont_true (by omega) (by omega)
    · cases h

theorem encodeChar_eq_one {c : Nat} (h1 : c < 0x80) : encodeChar c = [c] := by
  rw [encodeChar, if_pos h1]

theorem encodeChar_eq_two {c : Nat} (h1 : ¬ c < 0x80) (h2 : c < 0x800) :
    encodeChar c = [0xC0 + c / 64, 0x80 + c % 64] := by
  rw [encodeChar, if_neg h1, if_pos h2]

theorem encodeChar_eq_three {c : Nat} (h2 : ¬ c < 0x800) (h3 : c < 0x10000) :
    encodeChar c = [0xE0 + c / 4096, 0x80 + c / 64 % 64, 0x80 + c % 64] := by
  rw [encodeChar, if_neg (by omega), if_neg h2, if_pos h3]

theorem encodeChar_eq_four {c : Nat} (h3 : ¬ c < 0x10000) :
    encodeChar c = [0xF0 + c / 262144, 0x80 + c / 4096 % 64, 0x80 + c / 64 % 64, 0x80 + c % 64] := by
  rw [encodeChar, if_neg (by omega), if_neg (by omega), if_neg h3]

theorem utf8Len_eq_one {c : Nat} (h1 : c < 0x80) : utf8Len c = 1 := by
  rw [utf8Len, if_pos h1]

theorem utf8Len_eq_two {c : Nat} (h1 : ¬ c < 0x80) (h2 : c < 0x800) : utf8Len c = 2 := by
  rw [utf8Len, if_neg h1, if_pos h2]

theorem utf8Len_eq_three {c : Nat} (h2 : ¬ c < 0x800) (h3 : c < 0x10000) : utf8Len c = 3 := by
  rw [utf8Len, if_neg (by omega), if_neg h2, if_pos h3]

theorem utf8Len_eq_four {c : Nat} (h3 : ¬ c < 0x10000) : utf8Len c = 4 := by
  rw [utf8Len, if_neg (by omega), if_neg (by omega), if_neg h3]

theorem isScalar_iff {c : Nat} :
    isScalar c = true ↔ (c < 0xD800 ∨ (0xE000 ≤ c ∧ c < 0x110000)) := by
  simp [isScalar]

theorem isCont_iff {b : Nat} : isCont b = true ↔ (0x80 ≤ b ∧ b < 0xC0) := by
  simp [isCont]

theorem inRange_iff {lo hi b : Nat} : inRange lo hi b = true ↔ (lo ≤ b ∧ b < hi) := by
  simp [inRange]

theorem contLo_elim {b : Nat} :
    contLo b = if b = 0xE0 then 0xA0 else if b = 0xF0 then 0x90 else 0x80 := rfl

theorem contHi_elim {b : Nat} :
    contHi b = if b = 0xED then 0xA0 else if b = 0xF4 then 0x90 else 0xC0 := rfl

theorem decodeChar_encodeChar (c : Nat) (hc : isScalar c = true) (tail : List Nat) :
    decodeChar (encodeChar c ++ tail) = some (c, utf8Len c) := by
  have hs := isScalar_iff.1 hc
  by_cases h1 : c < 0x80
  · rw [encodeChar_eq_one h1, utf8Len_eq_one h1]
    simp only [List.cons_append, List.nil_append, decodeChar, if_pos h1]
  · by_cases h2 : c < 0x800
    · rw [encodeChar_eq_two h1 h2, utf8Len_eq_two h1 h2]
      simp only [List.cons_append, List.nil_append, decodeChar]
      have e1 : ¬ (0xC0 + c / 64 < 0x80) := by omega
      have e2 : ¬ (0xC0 + c / 64 < 0xC2) := by omega
      have e3 : 0xC0 + c / 64 < 0xE0 := by omega
      have e4 : isCont (0x80 + c % 64) = true := isCont_true (by omega) (by omega)
      rw [if_neg e1, if_neg e2, if_pos e3, if_pos e4]
      simp only [Option.some.injEq, Prod.mk.injEq]
      refine ⟨by omega, trivial⟩
    · by_cases h3 : c < 0x10000
      · rw [encodeChar_eq_three h2 h3, utf8Len_eq_three h2 h3]
        simp only [List.cons_append, List.nil_append, decodeChar]
        have e1 : ¬ (0xE0 + c / 4096 < 0x80) := by omega
        have e2 : ¬ (0xE0 + c / 4096 < 0xC2) := by omega
        have e3 : ¬ (0xE0 + c / 4096 < 0xE0) := by omega
        have e4 : 0xE0 + c / 4096 < 0xF0 := by omega
        have hb1 : inRange (contLo (0xE0 + c / 4096)) (contHi (0xE0 + c / 4096))
            (0x80 + c / 64 % 64) = true := by
          rw [contLo_elim, contHi_elim]
          by_cases he0 : c < 0x1000
          · rw [if_pos (by omega), if_neg (by omega), if_neg (by omega)]
            simp [inRange]
            omega
          · by_cases hed : c < 0xD000
            · rw [if_neg (by omega), if_neg (by omega), if_neg (by omega), if_neg (by omega)]
              simp [inRange]
              omega
            · by_cases hee : c < 0xE000
              · have hcd : c < 0xD800 := by rcases hs with h | h <;> omega
                rw [if_neg (by omega), if_neg (by omega), if_pos (by omega)]
                simp [inRange]
                omega
              · rw [if_neg (by omega), if_neg (by omega), if_neg (by omega), if_neg (by omega)]
                simp [inRange]
                omega
        have e5 : (inRange (contLo (0xE0 + c / 4096)) (contHi (0xE0 + c / 4096))
            (0x80 + c / 64 % 64) && isCont (0x80 + c % 64)) = true := by
          rw [hb1, isCont_true (by omega) (by omega)]
          rfl
        rw [if_neg e1, if_neg e2, if_neg e3, if_pos e4, if_pos e5]
        simp only [Option.some.injEq, Prod.mk.injEq]
        refine ⟨by omega, trivial⟩
      · rw [encodeChar_eq_four h3, utf8Len_eq_four h3]
        have hup : c < 0x110000 := by rcases hs with h | h <;> omega
        simp only [List.cons_append, List.nil_append, decodeChar]
        have e1 : ¬ (0xF0 + c / 262144 < 0x80) := by omega
        have e2 : ¬ (0xF0 + c / 262144 < 0xC2) := by omega
        have e3 : ¬ (0xF0 + c / 262144 < 0xE0) := by omega
        have e4 : ¬ (0xF0 + c / 262144 < 0xF0) := by omega
        have e5 : 0xF0 + c / 262144 < 0xF5 := by omega
        have hb1 : inRange (contLo (0xF0 + c / 262144)) (contHi (0xF0 + c / 262144))
            (0x80 + c / 4096 % 64) = true := by
          rw [contLo_elim, contHi_elim]
          by_cases hf0 : c < 0x40000
          · rw [if_neg (by omega), if_pos (by omega), if_neg (by omega), if_neg (by omega)]
            simp [inRange]
            omega
          · by_cases hf4 : 0x100000 ≤ c
            · rw [if_neg (by omega), if_neg (by omega), if_neg (by omega), if_pos (by omega)]
              simp [inRange]
              omega
            · rw [if_neg (by omega), if_neg (by omega), if_neg (by omega), if_neg (by omega)]
              simp [inRange]
              omega
        have e6 : (inRange (contLo (0xF0 + c / 262144)) (contHi (0xF0 + c / 262144))
            (0x80 + c / 4096 % 64) && isCont (0x80 + c / 64 % 64)
            && isCont (0x80 + c % 64)) = true := by
          rw [hb1, isCont_true (by omega) (by omega), isCont_true (by omega) (by omega)]
          rfl
        rw [if_neg e1, if_neg e2, if_neg e3, if_neg e4, if_pos e5, if_pos e6]
        simp only [Option.some.injEq, Prod.mk.injEq]
        refine ⟨by omega, trivial⟩

theorem sound_one {b : Nat} (hb : b < 0x80) :
    isScalar b = true ∧ encodeChar b = [b] ∧ 1 = utf8Len b :=
  ⟨isScalar_iff.2 (by omega), encodeChar_eq_one hb, (utf8Len_eq_one hb).symm⟩

theorem sound_two {b b1 : Nat} (hb2 : ¬ b < 0xC2) (hb3 : b < 0xE0) (hc : isCont b1 = true) :
    isScalar ((b - 0xC0) * 64 + (b1 - 0x80)) = true ∧
      encodeChar ((b - 0xC0) * 64 + (b1 - 0x80)) = [b, b1] ∧
      2 = utf8Len ((b - 0xC0) * 64 + (b1 - 0x80)) := by
  have h1 := isCont_iff.1 hc
  refine ⟨isScalar_iff.2 (by omega), ?_, (utf8Len_eq_two (by omega) (by omega)).symm⟩
  rw [encodeChar_eq_two (by omega) (by omega)]
  simp only [List.cons.injEq]
  refine ⟨by omega, by omega, trivial⟩

theorem sound_three {b b1 b2 : Nat} (hb3 : ¬ b < 0xE0) (hb4 : b < 0xF0)
    (hcond : (inRange (contLo b) (contHi b) b1 && isCont b2) = true) :
    isScalar ((b - 0xE0) * 4096 + (b1 - 0x80) * 64 + (b2 - 0x80)) = true ∧
      encodeChar ((b - 0xE0) * 4096 + (b1 - 0x80) * 64 + (b2 - 0x80)) = [b, b1, b2] ∧
      3 = utf8Len ((b - 0xE0) * 4096 + (b1 - 0x80) * 64 + (b2 - 0x80)) := by
  rw [Bool.and_eq_true] at hcond
  obtain ⟨hr, hc2⟩ := hcond
  have hr2 := inRange_iff.1 hr
  rw [contLo_elim, contHi_elim] at hr2
  have hf : 0x80 ≤ b1 ∧ b1 < 0xC0 ∧ (b = 0xE0 → 0xA0 ≤ b1) ∧ (b = 0xED → b1 < 0xA0) := by
    split_ifs at hr2 <;> omega
  have h2 := isCont_iff.1 hc2
  refine ⟨isScalar_iff.2 (by omega), ?_, (utf8Len_eq_three (by omega) (by omega)).symm⟩
  rw [encodeChar_eq_three (by omega) (by omega)]
  simp only [List.cons.injEq]
  refine ⟨by omega, by omega, by omega, trivial⟩

theorem sound_four {b b1 b2 b3 : Nat} (hb4 : ¬ b < 0xF0) (hb5 : b < 0xF5)
    (hcond : (inRange (contLo b) (contHi b) b1 && isCont b2 && isCont b3) = true) :
    isScalar ((b - 0xF0) * 262144 + (b1 - 0x80) * 4096 + (b2 - 0x80) * 64 + (b3 - 0x80)) = true ∧
      encodeChar ((b - 0xF0) * 262144 + (b1 - 0x80) * 4096 + (b2 - 0x80) * 64 + (b3 - 0x80))
        = [b, b1, b2, b3] ∧
      4 = utf8Len ((b - 0xF0) * 262144 + (b1 - 0x80) * 4096 + (b2 - 0x80) * 64 + (b3 - 0x80)) := by
  rw [Bool.and_eq_true, Bool.and_eq_true] at hcond
  obtain ⟨⟨hr, hc2⟩, hc3⟩ := hcond
  have hr2 := inRange_iff.1 hr
  rw [contLo_elim, contHi_elim] at hr2
  have hf : 0x80 ≤ b1 ∧ b1 < 0xC0 ∧ (b = 0xF0 → 0x90 ≤ b1) ∧ (b = 0xF4 → b1 < 0x90) := by
    split_ifs at hr2 <;> omega
  have h2 := isCont_iff.1 hc2
  have h3 := isCont_iff.1 hc3
  refine ⟨isScalar_iff.2 (by omega), ?_, (utf8Len_eq_four (by omega)).symm⟩
  rw [encodeChar_eq_four (by omega)]
  simp only [List.cons.injEq]
  refine ⟨by omega, by omega, by omega, by omega, trivial⟩

theorem decodeChar_sound : ∀ {bs : List Nat} {c k : Nat}, decodeChar bs = some (c, k) →
    isScalar c = true ∧ encodeChar c = bs.take k ∧ k = utf8Len c ∧ 1 ≤ k ∧ k ≤ bs.length := by
  intro bs c k h
  match bs with
  | [] => simp [decodeChar] at h
  | [b] =>
    simp only [decodeChar] at h
    split_ifs at h with hb1 hb2 hb3 hb4 hb5
    · simp only [Option.some.injEq, Prod.mk.injEq] at h
      obtain ⟨rfl, rfl⟩ := h
      obtain ⟨s1, s2, s3⟩ := sound_one hb1
      exact ⟨s1, by simpa using s2, s3, by omega, by simp⟩
  | [b, b1] =>
    simp only [decodeChar] at h
    split_ifs at h with hb1 hb2 hb3 hcont hb4 hb5
    · simp only [Option.some.injEq, Prod.mk.injEq] at h
      obtain ⟨rfl, rfl⟩ := h
      obtain ⟨s1, s2, s3⟩ := sound_one hb1
      exact ⟨s1, by simpa using s2, s3, by omega, by simp⟩
    · simp only [Option.some.injEq, Prod.mk.injEq] at h
      obtain ⟨rfl, rfl⟩ := h
      obtain ⟨s1, s2, s3⟩ := sound_two hb2 hb3 hcont
      exact ⟨s1, by simpa using s2, s3, by omega, by simp⟩
  | [b, b1, b2] =>
    simp only [decodeChar] at h
    split_ifs at h with hb1 hb2 hb3 hcont hb4 hcond hb5
    · simp only [Option.some.injEq, Prod.mk.injEq] at h
      obtain ⟨rfl, rfl⟩ := h
      obtain ⟨s1, s2, s3⟩ := sound_one hb1
      exact ⟨s1, by simpa using s2, s3, by omega, by simp⟩
    · simp only [Option.some.injEq, Prod.mk.injEq] at h
      obtain ⟨rfl, rfl⟩ := h
      obtain ⟨s1, s2, s3⟩ := sound_two hb2 hb3 hcont
      exact ⟨s1, by simpa using s2, s3, by omega, by simp⟩
    · simp only [Option.some.injEq, Prod.mk.injEq] at h
      obtain ⟨rfl, rfl⟩ := h
      obtain ⟨s1, s2, s3⟩ := sound_three hb3 hb4 hcond
      exact ⟨s1, by simpa using s2, s3, by omega, by simp⟩
  | b :: b1 :: b2 :: b3 :: rest =>
    simp only [decodeChar] at h
    split_ifs at h with hb1 hb2 hb3 hcont hb4 hcond hb5 hcond2
    · simp only [Option.some.injEq, Prod.mk.injEq] at h
      obtain ⟨rfl, rfl⟩ := h
      obtain ⟨s1, s2, s3⟩ := sound_one hb1
      exact ⟨s1, by simpa using s2, s3, by omega, by simp⟩
    · simp only [Option.some.injEq, Prod.mk.injEq] at h
      obtain ⟨rfl, rfl⟩ := h
      obtain ⟨s1, s2, s3⟩ := sound_two hb2 hb3 hcont
      exact ⟨s1, by simpa using s2, s3, by omega, by simp⟩
    · simp only [Option.some.injEq, Prod.mk.injEq] at h
      obtain ⟨rfl, rfl⟩ := h
      obtain ⟨s1, s2, s3⟩ := sound_three hb3 hb4 hcond
      exact ⟨s1, by simpa using s2, s3, by omega, by simp⟩
    · simp only [Option.some.injEq, Prod.mk.injEq] at h
      obtain ⟨rfl, rfl⟩ := h
      obtain ⟨s1, s2, s3⟩ := sound_four hb4 hb5 hcond2
      exact ⟨s1, by simpa using s2, s3, by omega, by simp⟩

/-- Inversion principle for `ValidUtf8`. -/
theorem validUtf8_inv {l : List Nat} (h : ValidUtf8 l) :
    l = [] ∨ ∃ c rest, isScalar c = true ∧ ValidUtf8 rest ∧ l = encodeChar c ++ rest := by
  cases h with
  | nil => exact Or.inl rfl
  | cons c rest hc hr => exact Or.inr ⟨c, rest, hc, hr, rfl⟩

/-- A successful decode splits the list into the character's encoding and the
remainder. -/
theorem decodeChar_split {bs : List Nat} {c k : Nat} (h : decodeChar bs = some (c, k)) :
    bs = encodeChar c ++ bs.drop k := by
  obtain ⟨-, h2, -, -, -⟩ := decodeChar_sound h
  rw [h2]
  exact (List.take_append_drop k bs).symm

/-- The validation loop accepts exactly the valid UTF-8 strings, for any
sufficient fuel. -/
theorem validateFuel_ok : ∀ (fuel : Nat) (bs : List Nat) (p : Nat), bs.length ≤ fuel →
    (validateFuel fuel bs p = Except.ok () ↔ ValidUtf8 bs) := by
  intro fuel
  induction fuel with
  | zero =>
    intro bs p hl
    have hbs : bs = [] := List.length_eq_zero.1 (Nat.le_zero.1 hl)
    subst hbs
    simp only [validateFuel]
    exact ⟨fun _ => ValidUtf8.nil, fun _ => trivial⟩
  | succ fuel ih =>
    intro bs p hl
    match bs with
    | [] =>
      simp only [validateFuel]
      exact ⟨fun _ => ValidUtf8.nil, fun _ => trivial⟩
    | b :: rest =>
      simp only [validateFuel]
      cases hdc : decodeChar (b :: rest) with
      | none =>
        simp only []
        constructor
        · intro h
          cases h
        · intro hv
          rcases validUtf8_inv hv with h0 | ⟨c, rest2, hc, hr, he⟩
          · cases h0
          · rw [he, decodeChar_encodeChar c hc rest2] at hdc
            cases hdc
      | some ck =>
        obtain ⟨c, k⟩ := ck
        simp only []
        obtain ⟨hsc, htake, hk, hk1, hkle⟩ := decodeChar_sound hdc
        have hlen : ((b :: rest).drop k).length ≤ fuel := by
          rw [List.length_drop]
          simp only [List.length_cons] at hl hkle ⊢
          omega
        rw [ih _ _ hlen]
        constructor
        · intro hv
          rw [decodeChar_split hdc]
          exact ValidUtf8.cons c _ hsc hv
        · intro hv
          rcases validUtf8_inv hv with h0 | ⟨c2, rest2, hc2, hr2, he⟩
          · cases h0
          · rw [he, decodeChar_encodeChar c2 hc2 rest2] at hdc
            simp only [Option.some.injEq, Prod.mk.injEq] at hdc
            obtain ⟨he2, hk2⟩ := hdc
            have hd : (encodeChar c2 ++ rest2).drop k = rest2 := by
              rw [← hk2, ← length_encodeChar c2]
              exact List.drop_left _ _
            rw [he, hd]
            exact hr2

/-- A validation failure at reported position `q` means: everything before `q`
is valid, and no valid character starts at `q` (with at least one byte
remaining there). -/
theorem validateFuel_error : ∀ (fuel : Nat) (bs : List Nat) (p q : Nat), bs.length ≤ fuel →
    validateFuel fuel bs p = Except.error q →
    ∃ d, q = p + d ∧ d ≤ bs.length ∧ ValidUtf8 (bs.take d) ∧
      decodeChar (bs.drop d) = none ∧ bs.drop d ≠ [] := by
  intro fuel
  induction fuel with
  | zero =>
    intro bs p q hl h
    have hbs : bs = [] := List.length_eq_zero.1 (Nat.le_zero.1 hl)
    subst hbs
    cases h
  | succ fuel ih =>
    intro bs p q hl h
    match bs with
    | [] => cases h
    | b :: rest =>
      simp only [validateFuel] at h
      cases hdc : decodeChar (b :: rest) with
      | none =>
        rw [hdc] at h
        simp only [Except.error.injEq] at h
        subst h
        exact ⟨0, by omega, by simp, ValidUtf8.nil, by simpa using hdc, by simp⟩
      | some ck =>
        obtain ⟨c, k⟩ := ck
        rw [hdc] at h
        obtain ⟨hsc, htake, hk, hk1, hkle⟩ := decodeChar_sound hdc
        have hlen : ((b :: rest).drop k).length ≤ fuel := by
          rw [List.length_drop]
          simp only [List.length_cons] at hl hkle ⊢
          omega
        obtain ⟨d2, hq, hd2le, hval, hdec, hne⟩ := ih _ _ _ hlen h
        have hq2 : q = p + k + d2 := hq
        refine ⟨k + d2, by omega, ?_, ?_, ?_, ?_⟩
        · rw [List.length_drop] at hd2le
          omega
        · rw [List.take_add, ← htake]
          exact ValidUtf8.cons c _ hsc hval
        · rw [List.drop_drop] at hdec
          exact hdec
        · rw [List.drop_drop] at hne
          exact hne

theorem validateUtf8_ok_iff {bs : List Nat} :
    validateUtf8 bs = Except.ok () ↔ ValidUtf8 bs :=
  validateFuel_ok bs.length bs 0 le_rfl

theorem validateUtf8_error {bs : List Nat} {q : Nat}
    (h : validateUtf8 bs = Except.error q) :
    q ≤ bs.length ∧ ValidUtf8 (bs.take q) ∧ decodeChar (bs.drop q) = none ∧
      bs.drop q ≠ [] := by
  obtain ⟨d, hq, hle, hval, hdec, hne⟩ := validateFuel_error bs.length bs 0 q le_rfl h
  have hd : d = q := by omega
  subst hd
  exact ⟨hle, hval, hdec, hne⟩

theorem isUtf8_iff {bs : List Nat} : isUtf8 bs = true ↔ ValidUtf8 bs := by
  unfold isUtf8
  cases he : validateUtf8 bs with
  | ok u =>
    obtain ⟨⟩ := u
    simp only []
    exact ⟨fun _ => validateUtf8_ok_iff.1 he, fun _ => trivial⟩
  | error q =>
    simp only []
    constructor
    · intro h
      cases h
    · intro hv
      rw [validateUtf8_ok_iff.2 hv] at he
      cases he

theorem isCharBoundary_zero (bs : List Nat) : isCharBoundary bs 0 = true := by
  simp [isCharBoundary]

theorem isCharBoundary_length (bs : List Nat) : isCharBoundary bs bs.length = true := by
  unfold isCharBoundary
  by_cases h : bs.length = 0
  · rw [if_pos h]
  · rw [if_neg h, List.getElem?_eq_none le_rfl]
    simp

/-- Splitting a valid UTF-8 string at a char boundary leaves two valid
strings. -/
theorem validUtf8_boundary {bs : List Nat} (h : ValidUtf8 bs) :
    ∀ i, isCharBoundary bs i = true → ValidUtf8 (bs.take i) ∧ ValidUtf8 (bs.drop i) := by
  induction h with
  | nil =>
    intro i hb
    by_cases hi : i = 0
    · subst hi
      exact ⟨ValidUtf8.nil, ValidUtf8.nil⟩
    · exfalso
      unfold isCharBoundary at hb
      rw [if_neg hi] at hb
      simp at hb
      exact hi hb
  | cons c rest hc hr ih =>
    intro i hb
    by_cases hi : i = 0
    · subst hi
      exact ⟨ValidUtf8.nil, ValidUtf8.cons c rest hc hr⟩
    · obtain ⟨b0, t, henc, hb0, ht⟩ := encodeChar_head_tail c
      have hk : (encodeChar c).length = t.length + 1 := by
        rw [henc]
        simp
      by_cases hik : i < (encodeChar c).length
      · exfalso
        have hgl : (encodeChar c ++ rest)[i]? = (encodeChar c)[i]? :=
          List.getElem?_append_left hik
        have hi1 : i - 1 < t.length := by omega
        have h2 : (encodeChar c)[i]? = t[i - 1]? := by
          rw [henc]
          have he : i = (i - 1) + 1 := by omega
          rw [he]
          simp
        have hx : t[i - 1]? = some (t.get ⟨i - 1, hi1⟩) := by
          simp
        have hxc : isCont (t.get ⟨i - 1, hi1⟩) = true :=
          ht _ (List.getElem?_mem hx)
        unfold isCharBoundary at hb
        rw [if_neg hi, hgl, h2, hx] at hb
        have hb2 : (!isCont (t.get ⟨i - 1, hi1⟩)) = true := hb
        rw [hxc] at hb2
        cases hb2
      · push_neg at hik
        have hrb : isCharBoundary rest (i - (encodeChar c).length) = true := by
          unfold isCharBoundary
          by_cases hik0 : i - (encodeChar c).length = 0
          · rw [if_pos hik0]
          · rw [if_neg hik0]
            have hgr : (encodeChar c ++ rest)[i]? = rest[i - (encodeChar c).length]? :=
              List.getElem?_append_right hik
            unfold isCharBoundary at hb
            rw [if_neg hi, hgr] at hb
            cases hrest : rest[i - (encodeChar c).length]? with
            | none =>
              rw [hrest] at hb
              have hb2 : (i == (encodeChar c ++ rest).length) = true := hb
              have hb3 : i = (encodeChar c ++ rest).length := by simpa using hb2
              rw [List.length_append] at hb3
              show (i - (encodeChar c).length == rest.length) = true
              simp only [beq_iff_eq]
              omega
            | some b2 =>
              rw [hrest] at hb
              exact hb
        obtain ⟨hvt, hvd⟩ := ih _ hrb
        constructor
        · have he : i = (encodeChar c).length + (i - (encodeChar c).length) := by omega
          rw [he, List.take_append]
          exact ValidUtf8.cons c _ hc hvt
        · have he : i = (encodeChar c).length + (i - (encodeChar c).length) := by omega
          rw [he, List.drop_append]
          exact hvd

/-- Unfolding equation of `decodeLastAux` on a nonempty reversed string. -/
theorem decodeLastAux_cons (w : Nat) (r : List Nat) :
    decodeLastAux (w :: r) =
      if w < 0x80 then some w
      else
        if isCont (r.headD 0) then
          if isCont (r.tail.headD 0) then
            some (((r.tail.tail.headD 0 % 8 * 64 + r.tail.headD 0 % 64) * 64
              + r.headD 0 % 64) * 64 + w % 64)
          else
            some ((r.tail.headD 0 % 16 * 64 + r.headD 0 % 64) * 64 + w % 64)
        else
          some (r.headD 0 % 32 * 64 + w % 64) := rfl

/-- Decoding backwards from the end of a string that ends in a full character
encoding returns exactly that character. -/
theorem decodeLast_append (A : List Nat) (c : Nat) (hc : isScalar c = true) :
    decodeLast (A ++ encodeChar c) = some c := by
  have hs := isScalar_iff.1 hc
  unfold decodeLast
  by_cases h1 : c < 0x80
  · rw [encodeChar_eq_one h1, List.reverse_append]
    simp only [List.reverse_cons, List.reverse_nil, List.nil_append, List.cons_append]
    rw [decodeLastAux_cons, if_pos h1]
  · by_cases h2 : c < 0x800
    · rw [encodeChar_eq_two h1 h2, List.reverse_append]
      simp only [List.reverse_cons, List.reverse_nil, List.nil_append, List.cons_append,
        List.append_assoc]
      rw [decodeLastAux_cons]
      rw [if_neg (by omega)]
      simp only [List.headD_cons, List.tail_cons]
      have hnc : ¬ (isCont (0xC0 + c / 64) = true) := by
        rw [isCont_false_hi (by omega)]
        simp
      rw [if_neg hnc]
      simp only [Option.some.injEq]
      omega
    · by_cases h3 : c < 0x10000
      · rw [encodeChar_eq_three h2 h3, List.reverse_append]
        simp only [List.reverse_cons, List.reverse_nil, List.nil_append, List.cons_append,
          List.append_assoc]
        rw [decodeLastAux_cons]
        rw [if_neg (by omega)]
        simp only [List.headD_cons, List.tail_cons]
        rw [if_pos (isCont_true (by omega) (by omega))]
        have hnc : ¬ (isCont (0xE0 + c / 4096) = true) := by
          rw [isCont_false_hi (by omega)]
          simp
        rw [if_neg hnc]
        simp only [Option.some.injEq]
        omega
      · have hup : c < 0x110000 := by rcases hs with h | h <;> omega
        rw [encodeChar_eq_four h3, List.reverse_append]
        simp only [List.reverse_cons, List.reverse_nil, List.nil_append, List.cons_append,
          List.append_assoc]
        rw [decodeLastAux_cons]
        rw [if_neg (by omega)]
        simp only [List.headD_cons, List.tail_cons]
        rw [if_pos (isCont_true (by omega) (by omega)),
          if_pos (isCont_true (by omega) (by omega))]
        simp only [Option.some.injEq]
        omega

/-! Facts about the `SliceString` operations. -/

theorem utf8Len_one_iff {c : Nat} : utf8Len c = 1 ↔ c < 0x80 := by
  unfold utf8Len
  split_ifs <;> omega

theorem validUtf8_single {c : Nat} (hc : isScalar c = true) : ValidUtf8 (encodeChar c) := by
  have h := ValidUtf8.cons c [] hc ValidUtf8.nil
  simpa using h

theorem length_as_str {s : SliceString} (h : s.len ≤ capacity s) :
    (as_str s).length = s.len := by
  unfold as_str
  rw [List.length_take]
  unfold capacity at h
  omega

theorem as_str_take {s : SliceString} {n : Nat} (hn : n ≤ s.len) :
    s.data.take n = (as_str s).take n := by
  unfold as_str
  rw [List.take_take]
  congr 1
  omega

theorem len_writeAt (s : SliceString) (bs : List Nat) :
    (writeAt s bs).len = s.len + bs.length := rfl

theorem capacity_writeAt {s : SliceString} {bs : List Nat}
    (h : s.len + bs.length ≤ capacity s) : capacity (writeAt s bs) = capacity s := by
  unfold capacity at h
  unfold capacity writeAt
  simp only [List.length_append, List.length_take, List.length_drop]
  omega

theorem as_str_writeAt {s : SliceString} {bs : List Nat} (h : s.len ≤ capacity s) :
    as_str (writeAt s bs) = as_str s ++ bs := by
  unfold capacity at h
  unfold as_str writeAt
  simp only []
  have hlen : (s.data.take s.len).length = s.len := by
    rw [List.length_take]
    omega
  calc (s.data.take s.len ++ bs ++ s.data.drop (s.len + bs.length)).take (s.len + bs.length)
      = (s.data.take s.len ++ (bs ++ s.data.drop (s.len + bs.length))).take
          ((s.data.take s.len).length + bs.length) := by
        rw [List.append_assoc, hlen]
    _ = s.data.take s.len ++ (bs ++ s.data.drop (s.len + bs.length)).take bs.length := by
        rw [List.take_append]
    _ = s.data.take s.len ++ bs := by
        rw [List.take_left]

theorem valid_new (buf : List Nat) : Valid (new buf) := by
  constructor
  · show ValidUtf8 (buf.take 0)
    simpa using ValidUtf8.nil
  · show 0 ≤ buf.length
    omega

theorem valid_clear (s : SliceString) : Valid (clear s) := by
  constructor
  · show ValidUtf8 (s.data.take 0)
    simpa using ValidUtf8.nil
  · show 0 ≤ s.data.length
    omega

theorem truncate_ge {s : SliceString} {n : Nat} (h : s.len ≤ capacity s)
    (hn : s.len ≤ n) : truncate s n = some s := by
  unfold truncate
  by_cases he : n ≤ s.len
  · have hnl : n = s.len := by omega
    subst hnl
    rw [if_pos le_rfl]
    have hb : isCharBoundary (as_str s) s.len = true := by
      have hl := length_as_str h
      rw [← hl]
      exact isCharBoundary_length (as_str s)
    rw [if_pos hb]
  · rw [if_neg he]

theorem truncate_lt_boundary {s : SliceString} {n : Nat} (hn : n ≤ s.len)
    (hb : isCharBoundary (as_str s) n = true) :
    truncate s n = some (SliceString.mk s.data n) := by
  unfold truncate
  rw [if_pos hn, if_pos hb]

theorem truncate_not_boundary {s : SliceString} {n : Nat} (hn : n ≤ s.len)
    (hb : isCharBoundary (as_str s) n = false) : truncate s n = none := by
  unfold truncate
  rw [if_pos hn, hb]
  simp

theorem valid_truncate {s : SliceString} {n : Nat} {t : SliceString} (h : Valid s)
    (ht : truncate s n = some t) : Valid t := by
  unfold truncate at ht
  split_ifs at ht with h1 h2
  · simp only [Option.some.injEq] at ht
    subst ht
    constructor
    · show ValidUtf8 (s.data.take n)
      rw [as_str_take h1]
      exact (validUtf8_boundary h.1 n h2).1
    · show n ≤ s.data.length
      have h2 := h.2
      unfold capacity at h2
      omega
  · simp only [Option.some.injEq] at ht
    subst ht
    exact h

theorem pop_empty {s : SliceString} (h : s.len = 0) : pop s = (none, s) := by
  unfold pop
  have ha : as_str s = [] := by
    unfold as_str
    rw [h]
    simp
  rw [ha]
  rfl

/-- Full characterisation of `pop` on a valid, nonempty view: it returns the
last character of the occupied text and shrinks the length by its encoded
size, leaving the backing region untouched. -/
theorem pop_spec {s : SliceString} (h : Valid s) (hne : 0 < s.len) :
    ∃ cs c, (∀ x ∈ cs, isScalar x = true) ∧ isScalar c = true ∧
      as_str s = encodeList cs ++ encodeChar c ∧
      (pop s).1 = some c ∧ (pop s).2 = SliceString.mk s.data (s.len - utf8Len c) ∧
      as_str (pop s).2 = encodeList cs := by
  rcases validUtf8_snoc h.1 with h0 | ⟨cs, c, hcs, hc, he⟩
  · exfalso
    have hl := length_as_str h.2
    rw [h0] at hl
    simp at hl
    omega
  · have hd : decodeLast (as_str s) = some c := by
      rw [← he]
      exact decodeLast_append (encodeList cs) c hc
    have hp : pop s = (some c, SliceString.mk s.data (s.len - utf8Len c)) := by
      unfold pop
      rw [hd]
    have hlen : s.len = (encodeList cs).length + utf8Len c := by
      have hl := length_as_str h.2
      rw [← he, List.length_append, length_encodeChar] at hl
      omega
    refine ⟨cs, c, hcs, hc, he.symm, by rw [hp], by rw [hp], ?_⟩
    rw [hp]
    show s.data.take (s.len - utf8Len c) = encodeList cs
    calc s.data.take (s.len - utf8Len c)
        = (as_str s).take (s.len - utf8Len c) := as_str_take (by omega)
      _ = (encodeList cs ++ encodeChar c).take (encodeList cs).length := by
          rw [← he]
          congr 1
          omega
      _ = encodeList cs := List.take_left _ _

theorem valid_pop {s : SliceString} (h : Valid s) : Valid (pop s).2 := by
  by_cases hl : s.len = 0
  · rw [pop_empty hl]
    exact h
  · obtain ⟨cs, c, hcs, hc, he, h1, h2, h3⟩ := pop_spec h (by omega)
    constructor
    · rw [h3]
      exact validUtf8_encodeList hcs
    · rw [h2]
      show s.len - utf8Len c ≤ s.data.length
      have hcap := h.2
      unfold capacity at hcap
      omega

theorem push_err {s : SliceString} {c : Nat} (h : capacity s < s.len + utf8Len c) :
    push s c = some (Except.error Error.mk, s) := by
  unfold push
  rw [if_pos h]

theorem push_str_err {s : SliceString} {t : List Nat} (h : capacity s < s.len + t.length) :
    push_str s t = (Except.error Error.mk, s) := by
  unfold push_str
  rw [if_pos h]

theorem push_str_ok {s : SliceString} {t : List Nat} (h : s.len + t.length ≤ capacity s) :
    push_str s t = (Except.ok (), writeAt s t) := by
  unfold push_str
  rw [if_neg (by omega)]

theorem valid_push {s : SliceString} {c : Nat} {r : Except Error Unit} {t : SliceString}
    (h : Valid s) (hc : isScalar c = true) (hp : push s c = some (r, t)) : Valid t := by
  unfold push at hp
  split_ifs at hp with h1 h2 h3
  · simp only [Option.some.injEq, Prod.mk.injEq] at hp
    obtain ⟨-, rfl⟩ := hp
    exact h
  · simp only [Option.some.injEq, Prod.mk.injEq] at hp
    obtain ⟨-, rfl⟩ := hp
    have hc80 : c < 0x80 := utf8Len_one_iff.1 h2
    have hmod : c % 256 = c := Nat.mod_eq_of_lt (by omega)
    have hle : s.len ≤ capacity s := by
      rw [utf8Len_one_iff.2 hc80] at h1
      omega
    constructor
    · rw [as_str_writeAt hle, hmod]
      have he : [c] = encodeChar c ++ [] := by
        rw [encodeChar_eq_one hc80]
        simp
      rw [he]
      exact validUtf8_append h.1 (by simpa using validUtf8_single hc)
    · rw [len_writeAt, capacity_writeAt (by simp; rw [utf8Len_one_iff.2 hc80] at h1; omega)]
      simp
      rw [utf8Len_one_iff.2 hc80] at h1
      omega
  · simp only [Option.some.injEq, Prod.mk.injEq] at hp
    obtain ⟨-, rfl⟩ := hp
    have hblen : (encodeChar c ++ List.replicate (4 - utf8Len c) 0).length = 4 := by
      rw [List.length_append, length_encodeChar, List.length_replicate]
      have h4 := utf8Len_le_four c
      have h1p := utf8Len_pos c
      omega
    have hle : s.len ≤ capacity s := h.2
    constructor
    · rw [as_str_writeAt hle]
      exact validUtf8_append h.1
        (validUtf8_append (validUtf8_single hc) (validUtf8_replicate_zero _))
    · rw [len_writeAt, capacity_writeAt (by rw [hblen]; exact h3), hblen]
      exact h3

theorem valid_push_str {s : SliceString} {t : List Nat} (h : Valid s)
    (ht : ValidUtf8 t) : Valid (push_str s t).2 := by
  unfold push_str
  split_ifs with h1
  · exact h
  · show Valid (writeAt s t)
    constructor
    · rw [as_str_writeAt h.2]
      exact validUtf8_append h.1 ht
    · rw [len_writeAt, capacity_writeAt (by omega)]
      omega

theorem split_off_some {s : SliceString} {n : Nat} (hn : n ≤ s.len)
    (hb : isCharBoundary (as_str s) n = true) :
    split_off s n = some (SliceString.mk (s.data.take n) n,
      SliceString.mk (s.data.drop n) (s.len - n)) := by
  unfold split_off
  rw [if_pos hn, if_pos hb]

theorem split_off_not_boundary {s : SliceString} {n : Nat} (hn : n ≤ s.len)
    (hb : isCharBoundary (as_str s) n = false) : split_off s n = none := by
  unfold split_off
  rw [if_pos hn, hb]
  simp

/-- The two views produced by a successful `split_off` partition the occupied
text at the split point. -/
theorem split_off_parts {s : SliceString} {n : Nat} {a b : SliceString} (h : s.len ≤ capacity s)
    (hs : split_off s n = some (a, b)) :
    n ≤ s.len ∧ isCharBoundary (as_str s) n = true ∧
      a = SliceString.mk (s.data.take n) n ∧ b = SliceString.mk (s.data.drop n) (s.len - n) ∧
      as_str a = (as_str s).take n ∧ as_str b = (as_str s).drop n ∧
      capacity a = n ∧ capacity b = capacity s - n := by
  unfold split_off at hs
  split_ifs at hs with h1 h2
  simp only [Option.some.injEq, Prod.mk.injEq] at hs
  obtain ⟨rfl, rfl⟩ := hs.symm
  have hcap := h
  unfold capacity at hcap
  refine ⟨h1, h2, rfl, rfl, ?_, ?_, ?_, ?_⟩
  · show (s.data.take n).take n = (as_str s).take n
    rw [List.take_take, Nat.min_self, as_str_take h1]
  · show (s.data.drop n).take (s.len - n) = (as_str s).drop n
    unfold as_str
    rw [List.drop_take]
  · show (s.data.take n).length = n
    rw [List.length_take]
    omega
  · show (s.data.drop n).length = capacity s - n
    rw [List.length_drop]
    rfl

theorem valid_split_off {s : SliceString} {n : Nat} {a b : SliceString} (h : Valid s)
    (hs : split_off s n = some (a, b)) : Valid a ∧ Valid b := by
  obtain ⟨h1, h2, ha, hb, hsa, hsb, hca, hcb⟩ := split_off_parts h.2 hs
  obtain ⟨hvt, hvd⟩ := validUtf8_boundary h.1 n h2
  have hcap := h.2
  unfold capacity at hcap
  constructor
  · constructor
    · rw [hsa]
      exact hvt
    · rw [ha]
      show n ≤ (s.data.take n).length
      rw [List.length_take]
      omega
  · constructor
    · rw [hsb]
      exact hvd
    · rw [hb]
      show s.len - n ≤ (s.data.drop n).length
      rw [List.length_drop]
      omega

theorem valid_from_utf8 {buf : List Nat} {n : Nat} {t : SliceString}
    (h : from_utf8 buf n = some (Except.ok t)) : Valid t := by
  unfold from_utf8 at h
  split_ifs at h with h1
  cases hv : validateUtf8 (buf.take n) with
  | ok u =>
    rw [hv] at h
    simp only [Option.some.injEq, Except.ok.injEq] at h
    subst h
    constructor
    · show ValidUtf8 (buf.take n)
      exact validateUtf8_ok_iff.1 (by rw [hv])
    · exact h1
  | error q =>
    rw [hv] at h
    simp at h

/-- Every safe operation that returns (rather than aborting) preserves the
representation invariant. -/
theorem valid_applyOp {s : SliceString} {op : Op} {t : SliceString} (h : Valid s)
    (ha : applyOp s op = some t) : Valid t := by
  cases op with
  | opClear =>
    simp only [applyOp, Option.some.injEq] at ha
    subst ha
    exact valid_clear s
  | opTruncate n =>
    exact valid_truncate h ha
  | opPop =>
    simp only [applyOp, Option.some.injEq] at ha
    subst ha
    exact valid_pop h
  | opPush c =>
    simp only [applyOp] at ha
    split_ifs at ha with hc
    cases hp : push s c with
    | none =>
      rw [hp] at ha
      cases ha
    | some rt =>
      obtain ⟨r, u⟩ := rt
      rw [hp] at ha
      have hu : u = t := by
        cases r with
        | error e => simpa using ha
        | ok v => simpa using ha
      subst hu
      exact valid_push h hc hp
  | opPushStr ts =>
    simp only [applyOp] at ha
    split_ifs at ha with hu
    have hv : ValidUtf8 ts := isUtf8_iff.1 hu
    have ht : t = (push_str s ts).2 := by
      cases hps : push_str s ts with
      | mk r u =>
        rw [hps] at ha
        simpa using ha.symm
    subst ht
    exact valid_push_str h hv
  | opSplitLeft n =>
    simp only [applyOp, Option.map_eq_some'] at ha
    obtain ⟨ab, hab, rfl⟩ := ha
    obtain ⟨a, b⟩ := ab
    exact (valid_split_off h hab).1
  | opSplitRight n =>
    simp only [applyOp, Option.map_eq_some'] at ha
    obtain ⟨ab, hab, rfl⟩ := ha
    obtain ⟨a, b⟩ := ab
    exact (valid_split_off h hab).2
  | opNew buf =>
    simp only [applyOp, Option.some.injEq] at ha
    subst ha
    exact valid_new buf
  | opFromUtf8 buf n =>
    simp only [applyOp] at ha
    cases hf : from_utf8 buf n with
    | none =>
      rw [hf] at ha
      cases ha
    | some r =>
      rw [hf] at ha
      cases r with
      | error e =>
        have ht : t = s := by simpa using ha.symm
        subst ht
        exact h
      | ok u =>
        have ht : t = u := by simpa using ha.symm
        subst ht
        exact valid_from_utf8 hf

/-! The claims. -/

/-- C1: for every view whose occupied prefix is valid UTF-8 with
`len ≤ capacity`, after any sequence of the safe operations (clear, truncate,
pop, push, push_str, split_off — following either view — and the checked
constructors) that returns without aborting, the occupied prefix `[0, len)` is
still valid UTF-8 and `len ≤ capacity` still holds. -/
theorem c1_invariant_preservation (s : SliceString) (h : Valid s) (ops : List Op)
    (t : SliceString) (hr : runOps s ops = some t) : Valid t := by
  induction ops generalizing s with
  | nil =>
    simp only [runOps, Option.some.injEq] at hr
    subst hr
    exact h
  | cons op ops ih =>
    simp only [runOps] at hr
    cases ha : applyOp s op with
    | none =>
      rw [ha] at hr
      cases hr
    | some u =>
      rw [ha] at hr
      exact ih u (valid_applyOp h ha) hr

theorem c1_invariant_preservation_witness :
    Valid (SliceString.mk [0, 0] 0) ∧
    runOps (SliceString.mk [0, 0] 0) [Op.opPush 97, Op.opPushStr [98], Op.opPop]
      = some (SliceString.mk [97, 98] 1) ∧
    Valid (SliceString.mk [97, 98] 1) := by
  have hv : Valid (SliceString.mk [0, 0] 0) := valid_new [0, 0]
  have hr : runOps (SliceString.mk [0, 0] 0) [Op.opPush 97, Op.opPushStr [98], Op.opPop]
      = some (SliceString.mk [97, 98] 1) := rfl
  exact ⟨hv, hr, c1_invariant_preservation _ hv _ _ hr⟩

/-- C2: whenever `len` plus the byte length of the new data exceeds the
capacity, `push` and `push_str` return the capacity error and the view is
returned byte-for-byte unchanged (no partial write). -/
theorem c2_capacity_error_atomicity (s : SliceString) (c : Nat) (t : List Nat)
    (hc : capacity s < s.len + utf8Len c) (ht : capacity s < s.len + t.length) :
    push s c = some (Except.error Error.mk, s) ∧
    push_str s t = (Except.error Error.mk, s) :=
  ⟨push_err hc, push_str_err ht⟩

theorem c2_capacity_error_atomicity_witness :
    (capacity (SliceString.mk [97] 1) < (SliceString.mk [97] 1).len + utf8Len 98) ∧
    (capacity (SliceString.mk [97] 1) < (SliceString.mk [97] 1).len + [98, 99].length) ∧
    push (SliceString.mk [97] 1) 98 = some (Except.error Error.mk, SliceString.mk [97] 1) ∧
    push_str (SliceString.mk [97] 1) [98, 99] = (Except.error Error.mk, SliceString.mk [97] 1) := by
  have h := c2_capacity_error_atomicity (SliceString.mk [97] 1) 98 [98, 99]
    (by decide) (by decide)
  exact ⟨by decide, by decide, h.1, h.2⟩

/-- C3: the claim fails on this code.  For a multi-byte character the code
encodes into a zero-initialised 4-byte buffer and then extends with the WHOLE
buffer (`extend_from_slice(&buf)` instead of `&buf[..len]`): pushing U+00E9
(whose UTF-8 encoding is the 2 bytes [0xC3, 0xA9]) into an empty 4-byte view
succeeds but appends 4 bytes [0xC3, 0xA9, 0, 0] and advances `len` by 4, not
by `len_utf8 = 2`; and with only 2 free bytes the capacity check passes yet
the container's extend assertion aborts the program. -/
theorem c3_push_multibyte_bug_eval :
    push (SliceString.mk [0, 0, 0, 0] 0) 0xE9
      = some (Except.ok (), SliceString.mk [0xC3, 0xA9, 0, 0] 4) ∧
    utf8Len 0xE9 = 2 ∧ encodeChar 0xE9 = [0xC3, 0xA9] ∧
    push (SliceString.mk [0, 0] 0) 0xE9 = none :=
  ⟨rfl, rfl, rfl, rfl⟩

/-- C4: the claim fails on this code, for the same reason as C3.  After
pushing U+00E9 into an empty 4-byte view the occupied bytes are
[0xC3, 0xA9, 0, 0], so `pop` decodes and removes the trailing NUL: it returns
U+0000 (not U+00E9) and leaves length 3 (not the original 0). -/
theorem c4_push_pop_bug_eval :
    push (SliceString.mk [0, 0, 0, 0] 0) 0xE9
      = some (Except.ok (), SliceString.mk [0xC3, 0xA9, 0, 0] 4) ∧
    (pop (SliceString.mk [0xC3, 0xA9, 0, 0] 4)).1 = some 0 ∧
    (pop (SliceString.mk [0xC3, 0xA9, 0, 0] 4)).2.len = 3 :=
  ⟨rfl, rfl, rfl⟩

/-- C5: for `at ≤ len`, `split_off(at)` at a char boundary leaves the
original view with occupied length `at` over the region prefix `[0, at)` and
returns a new view of occupied length `len - at` over the disjoint region
tail `[at, capacity)`; the two occupied texts concatenate to the original
occupied text exactly.  At a non-boundary `at ≤ len` the operation aborts. -/
theorem c5_split_off_partition (s : SliceString) (n : Nat) (h : n ≤ s.len) :
    (isCharBoundary (as_str s) n = true →
      ∃ a b, split_off s n = some (a, b) ∧ a.len = n ∧ b.len = s.len - n ∧
        as_str a ++ as_str b = as_str s ∧
        a.data = s.data.take n ∧ b.data = s.data.drop n) ∧
    (isCharBoundary (as_str s) n = false → split_off s n = none) := by
  constructor
  · intro hb
    refine ⟨SliceString.mk (s.data.take n) n, SliceString.mk (s.data.drop n) (s.len - n),
      split_off_some h hb, rfl, rfl, ?_, rfl, rfl⟩
    have e1 : (s.data.take n).take n = s.data.take n := by
      rw [List.take_take, Nat.min_self]
    have e2 : (s.data.drop n).take (s.len - n) = (s.data.take s.len).drop n :=
      (List.drop_take s.len n s.data).symm
    have e3 : s.data.take n = (s.data.take s.len).take n := by
      rw [List.take_take]
      congr 1
      omega
    show (s.data.take n).take n ++ (s.data.drop n).take (s.len - n) = s.data.take s.len
    rw [e1, e2, e3, List.take_append_drop]
  · intro hb
    exact split_off_not_boundary h hb

theorem c5_split_off_partition_witness :
    (2 ≤ (SliceString.mk [102, 111, 114, 0] 3).len) ∧
    (isCharBoundary (as_str (SliceString.mk [102, 111, 114, 0] 3)) 2 = true →
      ∃ a b, split_off (SliceString.mk [102, 111, 114, 0] 3) 2 = some (a, b) ∧
        a.len = 2 ∧ b.len = (SliceString.mk [102, 111, 114, 0] 3).len - 2 ∧
        as_str a ++ as_str b = as_str (SliceString.mk [102, 111, 114, 0] 3) ∧
        a.data = [102, 111, 114, 0].take 2 ∧ b.data = [102, 111, 114, 0].drop 2) ∧
    (isCharBoundary (as_str (SliceString.mk [102, 111, 114, 0] 3)) 2 = false →
      split_off (SliceString.mk [102, 111, 114, 0] 3) 2 = none) := by
  have h := c5_split_off_partition (SliceString.mk [102, 111, 114, 0] 3) 2 (by decide)
  exact ⟨by decide, h.1, h.2⟩

/-- C6: `truncate(n)` with `n ≥ len` leaves the view unchanged (for `n = len`
the boundary assert runs but always passes, for `n > len` nothing happens);
with `n < len` at a char boundary it keeps exactly the first `n` occupied
bytes; with `n < len` off a boundary it aborts; and truncating twice to the
same offset equals truncating once. -/
theorem c6_truncate_cases (s : SliceString) (n : Nat) (h : s.len ≤ capacity s) :
    (s.len ≤ n → truncate s n = some s) ∧
    (n < s.len → isCharBoundary (as_str s) n = true →
      truncate s n = some (SliceString.mk s.data n) ∧
      as_str (SliceString.mk s.data n) = (as_str s).take n) ∧
    (n < s.len → isCharBoundary (as_str s) n = false → truncate s n = none) ∧
    (truncate s n).bind (fun t => truncate t n) = truncate s n := by
  refine ⟨fun hn => truncate_ge h hn,
    fun hn hb => ⟨truncate_lt_boundary (le_of_lt hn) hb, as_str_take (le_of_lt hn)⟩,
    fun hn hb => truncate_not_boundary (le_of_lt hn) hb, ?_⟩
  by_cases h1 : n ≤ s.len
  · by_cases h2 : isCharBoundary (as_str s) n = true
    · rw [truncate_lt_boundary h1 h2]
      show truncate (SliceString.mk s.data n) n = some (SliceString.mk s.data n)
      refine truncate_ge ?_ le_rfl
      show n ≤ s.data.length
      unfold capacity at h
      omega
    · rw [truncate_not_boundary h1 (by simpa using h2)]
      rfl
  · have he : truncate s n = some s := truncate_ge h (by omega)
    rw [he]
    exact he

theorem c6_truncate_cases_witness :
    ((SliceString.mk [102, 111, 111] 3).len ≤ capacity (SliceString.mk [102, 111, 111] 3)) ∧
    (3 ≤ 2 → truncate (SliceString.mk [102, 111, 111] 3) 2
      = some (SliceString.mk [102, 111, 111] 3)) ∧
    ((2 : Nat) < 3 → isCharBoundary (as_str (SliceString.mk [102, 111, 111] 3)) 2 = true →
      truncate (SliceString.mk [102, 111, 111] 3) 2 = some (SliceString.mk [102, 111, 111] 2) ∧
      as_str (SliceString.mk [102, 111, 111] 2)
        = (as_str (SliceString.mk [102, 111, 111] 3)).take 2) ∧
    ((2 : Nat) < 3 → isCharBoundary (as_str (SliceString.mk [102, 111, 111] 3)) 2 = false →
      truncate (SliceString.mk [102, 111, 111] 3) 2 = none) ∧
    (truncate (SliceString.mk [102, 111, 111] 3) 2).bind (fun t => truncate t 2)
      = truncate (SliceString.mk [102, 111, 111] 3) 2 := by
  have h := c6_truncate_cases (SliceString.mk [102, 111, 111] 3) 2 (by decide)
  exact ⟨by decide, fun hn => absurd hn (by decide), h.2.1, h.2.2.1, h.2.2.2⟩

/-- C7: `pop` on an empty view returns nothing and leaves everything in
place; on a valid nonempty view it returns the last Unicode scalar value of
the occupied text and shrinks `len` by exactly that character's encoded
length, leaving the backing region (hence the preceding bytes) unchanged. -/
theorem c7_pop_cases (s : SliceString) (h : Valid s) :
    (s.len = 0 → pop s = (none, s)) ∧
    (0 < s.len → ∃ cs c, (∀ x ∈ cs, isScalar x = true) ∧ isScalar c = true ∧
      as_str s = encodeList cs ++ encodeChar c ∧ (pop s).1 = some c ∧
      (pop s).2.data = s.data ∧ (pop s).2.len = s.len - utf8Len c ∧
      as_str (pop s).2 = encodeList cs) := by
  refine ⟨pop_empty, fun hne => ?_⟩
  obtain ⟨cs, c, hcs, hc, he, h1, h2, h3⟩ := pop_spec h hne
  exact ⟨cs, c, hcs, hc, he, h1, by rw [h2], by rw [h2], h3⟩

theorem c7_pop_cases_witness :
    Valid (SliceString.mk [97] 1) ∧
    (((SliceString.mk [97] 1).len = 0 →
      pop (SliceString.mk [97] 1) = (none, SliceString.mk [97] 1)) ∧
    (0 < (SliceString.mk [97] 1).len → ∃ cs c, (∀ x ∈ cs, isScalar x = true) ∧
      isScalar c = true ∧
      as_str (SliceString.mk [97] 1) = encodeList cs ++ encodeChar c ∧
      (pop (SliceString.mk [97] 1)).1 = some c ∧
      (pop (SliceString.mk [97] 1)).2.data = [97] ∧
      (pop (SliceString.mk [97] 1)).2.len = 1 - utf8Len c ∧
      as_str (pop (SliceString.mk [97] 1)).2 = encodeList cs)) := by
  have hv : Valid (SliceString.mk [97] 1) := by
    constructor
    · show ValidUtf8 ([97].take 1)
      have h := ValidUtf8.cons 97 [] (by decide) ValidUtf8.nil
      simpa using h
    · decide
  exact ⟨hv, c7_pop_cases (SliceString.mk [97] 1) hv⟩

/-- C8: for `len` within the region, the validated constructor returns a view
over exactly that region with that occupied length precisely when bytes
`[0, len)` are valid UTF-8; otherwise it returns a decode error whose
`valid_up_to` is the position of the first invalid sequence (everything
before it is valid, no valid character starts there) and no view is
produced. -/
theorem c8_from_utf8_cases (buf : List Nat) (n : Nat) (h : n ≤ buf.length) :
    (ValidUtf8 (buf.take n) → from_utf8 buf n = some (Except.ok (SliceString.mk buf n))) ∧
    (∀ t, from_utf8 buf n = some (Except.ok t) →
      t.data = buf ∧ t.len = n ∧ ValidUtf8 (buf.take n)) ∧
    (∀ e, from_utf8 buf n = some (Except.error e) →
      ¬ ValidUtf8 (buf.take n) ∧ e.valid_up_to ≤ n ∧
      ValidUtf8 ((buf.take n).take e.valid_up_to) ∧
      decodeChar ((buf.take n).drop e.valid_up_to) = none) := by
  unfold from_utf8
  rw [if_pos h]
  cases hv : validateUtf8 (buf.take n) with
  | ok u =>
    obtain ⟨⟩ := u
    refine ⟨fun _ => rfl, fun t ht => ?_, fun e he => ?_⟩
    · simp only [Option.some.injEq, Except.ok.injEq] at ht
      subst ht
      exact ⟨rfl, rfl, validateUtf8_ok_iff.1 hv⟩
    · simp at he
  | error q =>
    refine ⟨fun hval => ?_, fun t ht => by simp at ht, fun e he => ?_⟩
    · exfalso
      rw [validateUtf8_ok_iff.2 hval] at hv
      cases hv
    · simp only [Option.some.injEq, Except.error.injEq] at he
      obtain ⟨hle, hvp, hdec, hne⟩ := validateUtf8_error hv
      have hlen : (buf.take n).length = n := by
        rw [List.length_take]
        omega
      subst he
      refine ⟨?_, ?_, hvp, hdec⟩
      · intro hval
        rw [validateUtf8_ok_iff.2 hval] at hv
        cases hv
      · show q ≤ n
        omega

theorem c8_from_utf8_cases_witness :
    ((2 : Nat) ≤ [97, 255].length) ∧
    (ValidUtf8 ([97, 255].take 2) →
      from_utf8 [97, 255] 2 = some (Except.ok (SliceString.mk [97, 255] 2))) ∧
    (∀ t, from_utf8 [97, 255] 2 = some (Except.ok t) →
      t.data = [97, 255] ∧ t.len = 2 ∧ ValidUtf8 ([97, 255].take 2)) ∧
    (∀ e, from_utf8 [97, 255] 2 = some (Except.error e) →
      ¬ ValidUtf8 ([97, 255].take 2) ∧ e.valid_up_to ≤ 2 ∧
      ValidUtf8 (([97, 255].take 2).take e.valid_up_to) ∧
      decodeChar (([97, 255].take 2).drop e.valid_up_to) = none) := by
  have h := c8_from_utf8_cases [97, 255] 2 (by decide)
  exact ⟨by decide, h.1, h.2.1, h.2.2⟩

/-- C9: consuming a view into its (region, length) pair and rebuilding via the
trusted constructor yields a view with identical occupied text and identical
capacity. -/
theorem c9_into_parts_round_trip (s : SliceString) :
    as_str (from_utf8_unchecked (into_parts s).1 (into_parts s).2) = as_str s ∧
    capacity (from_utf8_unchecked (into_parts s).1 (into_parts s).2) = capacity s :=
  ⟨rfl, rfl⟩

/-- C10: after a successful `split_off(at)` the original view's capacity is
exactly `at` (not the old capacity) and the new view's capacity is the
remainder; consequently any push or push_str on the original view whose new
length would exceed `at` returns the capacity error with the view
unchanged. -/
theorem c10_split_off_capacity (s : SliceString) (n : Nat) (h : s.len ≤ capacity s)
    (hn : n ≤ s.len) (hb : isCharBoundary (as_str s) n = true) :
    ∃ a b, split_off s n = some (a, b) ∧ capacity a = n ∧ capacity b = capacity s - n ∧
      (∀ c, n < a.len + utf8Len c → push a c = some (Except.error Error.mk, a)) ∧
      (∀ t, n < a.len + t.length → push_str a t = (Except.error Error.mk, a)) := by
  have hcap : s.len ≤ s.data.length := h
  have hca : capacity (SliceString.mk (s.data.take n) n) = n := by
    show (s.data.take n).length = n
    rw [List.length_take]
    omega
  refine ⟨SliceString.mk (s.data.take n) n, SliceString.mk (s.data.drop n) (s.len - n),
    split_off_some hn hb, hca, ?_, ?_, ?_⟩
  · show (s.data.drop n).length = capacity s - n
    rw [List.length_drop]
    rfl
  · intro c hlt
    refine push_err ?_
    rw [hca]
    exact hlt
  · intro t hlt
    refine push_str_err ?_
    rw [hca]
    exact hlt

theorem c10_split_off_capacity_witness :
    ((SliceString.mk [102, 111, 114, 0] 3).len ≤ capacity (SliceString.mk [102, 111, 114, 0] 3)) ∧
    (2 ≤ (SliceString.mk [102, 111, 114, 0] 3).len) ∧
    (isCharBoundary (as_str (SliceString.mk [102, 111, 114, 0] 3)) 2 = true) ∧
    (∃ a b, split_off (SliceString.mk [102, 111, 114, 0] 3) 2 = some (a, b) ∧
      capacity a = 2 ∧ capacity b = capacity (SliceString.mk [102, 111, 114, 0] 3) - 2 ∧
      (∀ c, 2 < a.len + utf8Len c → push a c = some (Except.error Error.mk, a)) ∧
      (∀ t, 2 < a.len + t.length → push_str a t = (Except.error Error.mk, a))) := by
  exact ⟨by decide, by decide, by decide,
    c10_split_off_capacity (SliceString.mk [102, 111, 114, 0] 3) 2
      (by decide) (by decide) (by decide)⟩

end SliceStr
